import Mathlib

/-!
Verification of the log-time extraction and aggregation engine of
`simple_log_analyzer_修正版.py`.

Shallow embedding: Python strings are `List Char`, Python non-negative
integers are `ℕ`, statistics are exact rationals `ℚ`.  Fallible file
reading is modelled by `Option` content.  The NumPy percentile and median
routines called by the source are modelled from their documented
linear-interpolation semantics (NumPy is an external library, not part of
this repository).
-/

namespace LogAnalyzer

/-- Whitespace characters removed by Python `str.strip()` (ASCII set). -/
def isSpaceChar (c : Char) : Bool :=
  c == ' ' || c == '\t' || c == '\n' || c == '\r' || c == '\x0b' || c == '\x0c'

/-- Python `s.strip()`: drop leading and trailing whitespace. -/
def pyStrip (l : List Char) : List Char :=
  ((l.dropWhile isSpaceChar).reverse.dropWhile isSpaceChar).reverse

/-- Python `s.split("\n")`. -/
def splitNl : List Char → List (List Char)
  | [] => [[]]
  | c :: rest =>
    if c = '\n' then [] :: splitNl rest
    else
      match splitNl rest with
      | [] => [[c]]
      | h :: t => (c :: h) :: t

/-- `pat` occurs in `line` starting at position `p`. -/
def matchAt (pat line : List Char) (p : ℕ) : Bool :=
  ((line.drop p).take pat.length == pat) && decide (p + pat.length ≤ line.length)

/-- All starting positions of `pat` inside `line`, in ascending order. -/
def allPos (pat line : List Char) : List ℕ :=
  (List.range (line.length + 1)).filter (matchAt pat line)

/-- Python `line.find(pat, start)`: the least matching position at or after
`start`; `none` models Python's `-1`. -/
def pyFind (pat line : List Char) (start : ℕ) : Option ℕ :=
  ((allPos pat line).filter (fun p => decide (start ≤ p))).head?

/-- Python `pat in line`. -/
def pyContains (pat line : List Char) : Bool :=
  (pyFind pat line 0).isSome

/-- The source's occurrence-collecting loop
(`while True: pos = line.find(pat, start); ...; start = pos + 1`),
with `fuel` bounding the number of iterations. -/
def findAllAux (pat line : List Char) : ℕ → ℕ → List ℕ
  | 0, _ => []
  | fuel + 1, start =>
    match pyFind pat line start with
    | none => []
    | some p => p :: findAllAux pat line fuel (p + 1)

/-- All occurrence positions, as collected by the source's find-loop. -/
def findAll (pat line : List Char) : List ℕ :=
  findAllAux pat line (line.length + 2) 0

/-- First maximal run of decimal digits, as found by
`re.search(r'(\d+)', s)`. -/
def firstDigitRun : List Char → Option (List Char)
  | [] => none
  | c :: rest =>
    if c.isDigit then some (c :: rest.takeWhile Char.isDigit)
    else firstDigitRun rest

/-- Python `int` on a string of decimal digits. -/
def digitsToNat (ds : List Char) : ℕ :=
  ds.foldl (fun n c => 10 * n + (c.toNat - 48)) 0

/-- Numeric value between prefix-end position `pe` and suffix position `s`:
slice the line, strip it, find the first digit run, parse it. -/
def digitValue? (line : List Char) (pe s : ℕ) : Option ℕ :=
  (firstDigitRun (pyStrip ((line.drop pe).take (s - pe)))).map digitsToNat

/-- Inner suffix-position loop of the source, including the `found` flag
and its (misplaced) break check after the positional test. -/
def innerScan (line : List Char) (pe : ℕ) : List ℕ → Bool → List ℕ × Bool
  | [], found => ([], found)
  | s :: rest, found =>
    if pe ≤ s then
      match digitValue? line pe s with
      | some v => ([v], true)
      | none => if found then ([], found) else innerScan line pe rest found
    else
      if found then ([], found) else innerScan line pe rest found

/-- Outer prefix-position loop of the source (no break of its own). -/
def outerScan (line : List Char) (preLen : ℕ) : List ℕ → List ℕ → Bool → List ℕ
  | [], _, _ => []
  | p :: rest, ss, found =>
    match innerScan line (p + preLen) ss found with
    | (vs, fd) => vs ++ outerScan line preLen rest ss fd

/-- Values extracted from one line: containment check, occurrence
enumeration for both search strings, then the nested scan. -/
def lineValues (line pre suf : List Char) : List ℕ :=
  if pyContains pre line && pyContains suf line then
    outerScan line pre.length (findAll pre line) (findAll suf line) false
  else []

/-- One extracted record, as built by the source
(`file`, `line_num` is 1-indexed, `time`, `line` is the stripped line). -/
structure TimeRecord where
  file : List Char
  line_num : ℕ
  time : ℕ
  line : List Char
deriving DecidableEq, Repr

/-- Per-line traversal of the source, carrying the running 0-based index. -/
def extractAux (fname pre suf : List Char) : ℕ → List (List Char) → List TimeRecord
  | _, [] => []
  | i, l :: rest =>
    (lineValues l pre suf).map (fun v => ⟨fname, i + 1, v, pyStrip l⟩) ++
      extractAux fname pre suf (i + 1) rest

/-- Content part of `extract_times_from_file`: strip the content, split on
newline, scan each line with 1-indexed numbering. -/
def extract_times (content pre suf fname : List Char) : List TimeRecord :=
  extractAux fname pre suf 0 (splitNl (pyStrip content))

/-- `extract_times_from_file`: `none` content models a file whose read
raised an exception, which the source catches and turns into `[]`. -/
def extract_times_from_file (fname : List Char) (content : Option (List Char))
    (pre suf : List Char) : List TimeRecord :=
  match content with
  | none => []
  | some c => extract_times c pre suf fname

/-- `extract_times_from_directory`: concatenate the per-file record lists
in file order. -/
def extract_times_from_directory
    (files : List (List Char × Option (List Char))) (pre suf : List Char) :
    List TimeRecord :=
  (files.map (fun e => extract_times_from_file e.1 e.2 pre suf)).flatten

/-- Ascending sort of the value list (NumPy sorts before indexing). -/
def sortQ (l : List ℚ) : List ℚ :=
  l.insertionSort (fun a b => a ≤ b)

/-- Zero-indexed interpolation rank of the `p`-th percentile among `n`
sorted values: `p / 100 * (n - 1)`. -/
def rankOf (p : ℚ) (n : ℕ) : ℚ := p * ((n : ℚ) - 1) / 100

/-- Linear interpolation at rank `r` into the sorted list `s`: the value at
the floor rank plus the fractional part times the step to the next value. -/
def interpAt (s : List ℚ) (r : ℚ) : ℚ :=
  s.getD (Int.floor r).toNat 0 +
    (r - ((Int.floor r).toNat : ℚ)) *
      (s.getD ((Int.floor r).toNat + 1) 0 - s.getD (Int.floor r).toNat 0)

/-- Modelled from NumPy's documented default semantics:
`np.percentile(values, p)` with linear interpolation. -/
def npPercentile (p : ℚ) (l : List ℚ) : ℚ :=
  interpAt (sortQ l) (rankOf p (sortQ l).length)

/-- Median of an already sorted list: middle element for odd length, mean
of the two middle elements for even length. -/
def medianOfSorted (s : List ℚ) : ℚ :=
  if s.length % 2 = 1 then s.getD (s.length / 2) 0
  else (s.getD (s.length / 2 - 1) 0 + s.getD (s.length / 2) 0) / 2

/-- Modelled from NumPy's documented semantics: `np.median(values)`. -/
def npMedian (l : List ℚ) : ℚ := medianOfSorted (sortQ l)

/-- Python `min` over a non-empty list (`0` on `[]`, never used there). -/
def qmin : List ℚ → ℚ
  | [] => 0
  | x :: xs => xs.foldl min x

/-- Python `max` over a non-empty list (`0` on `[]`, never used there). -/
def qmax : List ℚ → ℚ
  | [] => 0
  | x :: xs => xs.foldl max x

/-- The statistics dictionary built by the source. -/
structure Stats where
  count : ℕ
  min : ℚ
  max : ℚ
  avg : ℚ
  median : ℚ
  p90 : ℚ
  p95 : ℚ
  p99 : ℚ
deriving DecidableEq, Repr

/-- The extracted `time` fields as rationals. -/
def valuesQ (vs : List ℕ) : List ℚ := vs.map (fun v => (v : ℚ))

/-- The statistics formulas shared by `calculate_statistics` and
`group_by_file` for a non-empty value list. -/
def statsOfValues (vs : List ℕ) : Stats :=
  ⟨vs.length, qmin (valuesQ vs), qmax (valuesQ vs),
    (valuesQ vs).sum / ((vs.length : ℕ) : ℚ),
    npMedian (valuesQ vs),
    npPercentile 90 (valuesQ vs), npPercentile 95 (valuesQ vs),
    npPercentile 99 (valuesQ vs)⟩

/-- `calculate_statistics`: the all-zero record on an empty input,
otherwise the shared formulas over all extracted values. -/
def calculate_statistics (ts : List TimeRecord) : Stats :=
  if ts = [] then ⟨0, 0, 0, 0, 0, 0, 0, 0⟩
  else statsOfValues (ts.map TimeRecord.time)

/-- One step of the grouping dict: append the value to the entry of `f`,
or add a fresh entry at the end (Python dicts keep insertion order). -/
def addTime : List (List Char × List ℕ) → List Char → ℕ → List (List Char × List ℕ)
  | [], f, t => [(f, [t])]
  | (k, vs) :: rest, f, t =>
    if k = f then (k, vs ++ [t]) :: rest else (k, vs) :: addTime rest f t

/-- The `file_groups` dict of `group_by_file`. -/
def fileGroups (ts : List TimeRecord) : List (List Char × List ℕ) :=
  ts.foldl (fun g r => addTime g r.file r.time) []

/-- All grouped values in group order. -/
def flattenGroups (g : List (List Char × List ℕ)) : List ℕ :=
  (g.map Prod.snd).flatten

/-- `group_by_file`: per-file statistics over each group's values. -/
def group_by_file (ts : List TimeRecord) : List (List Char × Stats) :=
  (fileGroups ts).map (fun e => (e.1, statsOfValues e.2))

/-- Control flow of `main` on the core data (directory check, non-empty
search strings, the zero-record early exit); the first component is the
process exit status. -/
def mainRun (dir_ok : Bool) (pre suf : List Char)
    (files : List (List Char × Option (List Char))) :
    ℕ × Option (Stats × List (List Char × Stats)) :=
  if !dir_ok then (1, none)
  else if pre.isEmpty || suf.isEmpty then (1, none)
  else if extract_times_from_directory files pre suf = [] then (0, none)
  else (0, some (calculate_statistics (extract_times_from_directory files pre suf),
                 group_by_file (extract_times_from_directory files pre suf)))

/-- The candidate (prefix position, suffix position) pairs in the nested
scan order: outer positions ascending, inner positions ascending. -/
def candPairs (ps ss : List ℕ) : List (ℕ × ℕ) :=
  ps.flatMap (fun p => ss.map (fun s => (p, s)))

/-- A prefix-end/suffix-position pair is valid when the prefix occurrence
ends at or before the suffix occurrence and the stripped interior contains
a digit run. -/
def validAt (line : List Char) (pe s : ℕ) : Bool :=
  decide (pe ≤ s) && (digitValue? line pe s).isSome

/-- Validity of a candidate pair `(prefix position, suffix position)`. -/
def validPair (line : List Char) (preLen : ℕ) (q : ℕ × ℕ) : Bool :=
  validAt line (q.1 + preLen) q.2

/-- The value extracted at a candidate pair. -/
def pairValue (line : List Char) (preLen : ℕ) (q : ℕ × ℕ) : ℕ :=
  (digitValue? line (q.1 + preLen) q.2).getD 0

/-- Strict lexicographic order on candidate pairs. -/
def pairLT (a b : ℕ × ℕ) : Prop :=
  a.1 < b.1 ∨ (a.1 = b.1 ∧ a.2 < b.2)

/-! Lemmas about the occurrence-finding loop. -/

lemma allPos_pairwise (pat line : List Char) :
    (allPos pat line).Pairwise (fun a b => a < b) :=
  (List.pairwise_lt_range _).filter _

lemma filter_ge_of_head (l : List ℕ) (hl : l.Pairwise (fun a b => a < b)) :
    ∀ {start p : ℕ},
      (l.filter (fun x => decide (start ≤ x))).head? = some p →
      l.filter (fun x => decide (start ≤ x)) =
        p :: l.filter (fun x => decide (p + 1 ≤ x)) := by
  induction l with
  | nil => intro start p h; simp at h
  | cons a t ih =>
    intro start p h
    rcases List.pairwise_cons.mp hl with ⟨ha, ht⟩
    by_cases hsa : start ≤ a
    · have hfa : (a :: t).filter (fun x => decide (start ≤ x)) =
          a :: t.filter (fun x => decide (start ≤ x)) := by
        simp [List.filter_cons, hsa]
      rw [hfa] at h ⊢
      obtain rfl : a = p := by simpa using h
      have h1 : t.filter (fun x => decide (start ≤ x)) = t :=
        List.filter_eq_self.mpr (fun x hx => by
          simp only [decide_eq_true_eq]
          exact le_of_lt (lt_of_le_of_lt hsa (ha x hx)))
      have h2 : (a :: t).filter (fun x => decide (a + 1 ≤ x)) = t := by
        rw [List.filter_cons]
        simp only [decide_eq_true_eq, Nat.add_one_le_iff, lt_irrefl, decide_False,
          Bool.false_eq_true, if_false]
        exact List.filter_eq_self.mpr (fun x hx => by
          simp only [decide_eq_true_eq, Nat.add_one_le_iff]
          exact ha x hx)
      rw [h1, h2]
    · have hfa : (a :: t).filter (fun x => decide (start ≤ x)) =
          t.filter (fun x => decide (start ≤ x)) := by
        simp [List.filter_cons, hsa]
      rw [hfa] at h ⊢
      have hrec := ih ht h
      have hp_mem : p ∈ t.filter (fun x => decide (start ≤ x)) := by
        rw [hrec]; exact List.mem_cons_self _ _
      have hpt : p ∈ t := (List.mem_filter.mp hp_mem).1
      have hap : a < p := ha p hpt
      have h3 : (a :: t).filter (fun x => decide (p + 1 ≤ x)) =
          t.filter (fun x => decide (p + 1 ≤ x)) := by
        rw [List.filter_cons]
        have : ¬ (p + 1 ≤ a) := by omega
        simp [this]
      rw [h3]
      exact hrec

lemma findAllAux_eq (pat line : List Char) :
    ∀ (fuel start : ℕ),
      ((allPos pat line).filter (fun x => decide (start ≤ x))).length ≤ fuel →
      findAllAux pat line fuel start =
        (allPos pat line).filter (fun x => decide (start ≤ x)) := by
  intro fuel
  induction fuel with
  | zero =>
    intro start h
    have : (allPos pat line).filter (fun x => decide (start ≤ x)) = [] :=
      List.length_eq_zero.mp (Nat.le_zero.mp h)
    rw [findAllAux, this]
  | succ fuel ih =>
    intro start h
    rcases hh : pyFind pat line start with _ | p
    · have hh' := hh
      unfold pyFind at hh'
      have hnil : (allPos pat line).filter (fun x => decide (start ≤ x)) = [] :=
        List.head?_eq_none_iff.mp hh'
      simp only [findAllAux, hh, hnil]
    · have hsplit := filter_ge_of_head (allPos pat line) (allPos_pairwise pat line) hh
      have hlen : ((allPos pat line).filter (fun x => decide (p + 1 ≤ x))).length ≤ fuel := by
        rw [hsplit] at h
        simpa using Nat.lt_succ_iff.mp (Nat.lt_of_lt_of_le (Nat.lt_succ_self _) h)
      simp only [findAllAux, hh]
      rw [hsplit, ih (p + 1) hlen]

lemma findAll_eq_allPos (pat line : List Char) :
    findAll pat line = allPos pat line := by
  have h0 : (allPos pat line).filter (fun x => decide (0 ≤ x)) = allPos pat line :=
    List.filter_eq_self.mpr (fun a _ => by simp)
  have hlen : ((allPos pat line).filter (fun x => decide (0 ≤ x))).length ≤
      line.length + 2 := by
    calc ((allPos pat line).filter (fun x => decide (0 ≤ x))).length
        ≤ (allPos pat line).length := List.length_filter_le _ _
      _ ≤ (List.range (line.length + 1)).length := List.length_filter_le _ _
      _ ≤ line.length + 2 := by simp
  have := findAllAux_eq pat line (line.length + 2) 0 hlen
  rw [findAll, this, h0]

/-! Lemmas about the nested candidate-pair scan. -/

lemma innerScan_false_eq (line : List Char) (pe : ℕ) (ss : List ℕ) :
    innerScan line pe ss false =
      match ss.find? (fun s => validAt line pe s) with
      | some s => ([(digitValue? line pe s).getD 0], true)
      | none => ([], false) := by
  induction ss with
  | nil => rfl
  | cons s rest ih =>
    by_cases hpe : pe ≤ s
    · rcases hd : digitValue? line pe s with _ | v
      · have hv : validAt line pe s = false := by simp [validAt, hpe, hd]
        simp only [innerScan, hpe, if_true, hd, List.find?_cons, hv]
        simpa using ih
      · have hv : validAt line pe s = true := by simp [validAt, hpe, hd]
        simp only [innerScan, hpe, if_true, hd, List.find?_cons, hv]
        simp [hd]
    · have hv : validAt line pe s = false := by simp [validAt, hpe]
      simp only [innerScan, hpe, List.find?_cons, hv]
      simpa using ih

lemma candPairs_cons (p : ℕ) (rest ss : List ℕ) :
    candPairs (p :: rest) ss = ss.map (fun s => (p, s)) ++ candPairs rest ss := by
  simp [candPairs]

lemma candPairs_nil_left (ss : List ℕ) : candPairs [] ss = [] := rfl

lemma candPairs_nil_right (ps : List ℕ) : candPairs ps [] = [] := by
  simp [candPairs]

lemma find?_map_block (line : List Char) (preLen p : ℕ) (ss : List ℕ) :
    (ss.map (fun s => (p, s))).find? (validPair line preLen) =
      (ss.find? (fun s => validAt line (p + preLen) s)).map (fun s => (p, s)) := by
  rw [List.find?_map]
  rfl

lemma outerScan_head (line : List Char) (preLen : ℕ) :
    ∀ (ps ss : List ℕ),
      (outerScan line preLen ps ss false).head? =
        ((candPairs ps ss).find? (validPair line preLen)).map
          (pairValue line preLen) := by
  intro ps
  induction ps with
  | nil => intro ss; rfl
  | cons p rest ih =>
    intro ss
    have hinner := innerScan_false_eq line (p + preLen) ss
    rcases hf : ss.find? (fun s => validAt line (p + preLen) s) with _ | s
    · have hzero : innerScan line (p + preLen) ss false = ([], false) := by
        rw [hinner, hf]
      simp only [outerScan, hzero, List.nil_append]
      rw [ih, candPairs_cons, List.find?_append, find?_map_block, hf]
      rfl
    · have hone : innerScan line (p + preLen) ss false =
          ([(digitValue? line (p + preLen) s).getD 0], true) := by
        rw [hinner, hf]
      simp only [outerScan, hone]
      rw [candPairs_cons, List.find?_append, find?_map_block, hf]
      simp [pairValue]

lemma outerScan_nil_of_none (line : List Char) (preLen : ℕ) :
    ∀ (ps ss : List ℕ),
      (candPairs ps ss).find? (validPair line preLen) = none →
      outerScan line preLen ps ss false = [] := by
  intro ps
  induction ps with
  | nil => intro ss _; rfl
  | cons p rest ih =>
    intro ss h
    rw [candPairs_cons, List.find?_append] at h
    have hblock : (ss.map (fun s => (p, s))).find? (validPair line preLen) = none := by
      rcases hb : (ss.map (fun s => (p, s))).find? (validPair line preLen) with _ | q
      · rfl
      · rw [hb] at h; simp [Option.or] at h
    have hrest : (candPairs rest ss).find? (validPair line preLen) = none := by
      rw [hblock] at h; simpa [Option.or] using h
    have hf : ss.find? (fun s => validAt line (p + preLen) s) = none := by
      rw [find?_map_block] at hblock
      rcases hq : ss.find? (fun s => validAt line (p + preLen) s) with _ | s
      · rfl
      · rw [hq] at hblock; simp at hblock
    have hzero : innerScan line (p + preLen) ss false = ([], false) := by
      rw [innerScan_false_eq, hf]
    simp only [outerScan, hzero, List.nil_append]
    exact ih ss hrest

lemma findAll_eq_nil_of_not_contains (pat line : List Char)
    (h : pyContains pat line = false) : findAll pat line = [] := by
  rw [findAll]
  show findAllAux pat line (line.length + 1 + 1) 0 = []
  have hf : pyFind pat line 0 = none := by
    unfold pyContains at h
    exact Option.not_isSome_iff_eq_none.mp (by simp [h])
  simp [findAllAux, hf]

lemma lineValues_head (line pre suf : List Char) :
    (lineValues line pre suf).head? =
      ((candPairs (findAll pre line) (findAll suf line)).find?
        (validPair line pre.length)).map (pairValue line pre.length) := by
  by_cases h1 : pyContains pre line = true
  · by_cases h2 : pyContains suf line = true
    · rw [lineValues]
      simp only [h1, h2, Bool.and_self, if_true]
      exact outerScan_head line pre.length _ _
    · rw [lineValues]
      have h2' : pyContains suf line = false := by
        simpa using h2
      simp only [h1, h2', Bool.and_false, Bool.false_eq_true, if_false]
      rw [findAll_eq_nil_of_not_contains suf line h2', candPairs_nil_right]
      rfl
  · rw [lineValues]
    have h1' : pyContains pre line = false := by
      simpa using h1
    simp only [h1', Bool.false_and, Bool.false_eq_true, if_false]
    rw [findAll_eq_nil_of_not_contains pre line h1', candPairs_nil_left]
    rfl

lemma lineValues_nil_of_none (line pre suf : List Char)
    (h : (candPairs (findAll pre line) (findAll suf line)).find?
      (validPair line pre.length) = none) :
    lineValues line pre suf = [] := by
  rw [lineValues]
  by_cases hc : (pyContains pre line && pyContains suf line) = true
  · simp only [hc, if_true]
    exact outerScan_nil_of_none line pre.length _ _ h
  · simp [hc]

lemma find?_min {α : Type} {R : α → α → Prop} :
    ∀ {l : List α} {f : α → Bool} {a : α}, l.Pairwise R → l.find? f = some a →
      ∀ b ∈ l, f b = true → a = b ∨ R a b := by
  intro l
  induction l with
  | nil => intro f a _ h; simp at h
  | cons c t ih =>
    intro f a hp hf b hb hfb
    rcases List.pairwise_cons.mp hp with ⟨hc, ht⟩
    rcases hfc : f c with _ | _
    · simp only [List.find?_cons, hfc] at hf
      rcases List.mem_cons.mp hb with rfl | hbt
      · rw [hfc] at hfb; exact absurd hfb (by simp)
      · exact ih ht hf b hbt hfb
    · simp only [List.find?_cons, hfc, Option.some.injEq] at hf
      subst hf
      rcases List.mem_cons.mp hb with rfl | hbt
      · exact Or.inl rfl
      · exact Or.inr (hc b hbt)

lemma candPairs_pairwise {ps ss : List ℕ} (hp : ps.Pairwise (fun a b => a < b))
    (hs : ss.Pairwise (fun a b => a < b)) :
    (candPairs ps ss).Pairwise pairLT := by
  induction ps with
  | nil => exact List.Pairwise.nil
  | cons p rest ih =>
    rcases List.pairwise_cons.mp hp with ⟨hpr, hrest⟩
    rw [candPairs_cons, List.pairwise_append]
    refine ⟨?_, ih hrest, ?_⟩
    · rw [List.pairwise_map]
      exact hs.imp (fun hab => Or.inr ⟨rfl, hab⟩)
    · intro a ha b hb
      rcases List.mem_map.mp ha with ⟨s, _, rfl⟩
      have hb1 : b.1 ∈ rest := by
        rcases List.mem_flatMap.mp hb with ⟨x, hx, hbx⟩
        rcases List.mem_map.mp hbx with ⟨s', _, rfl⟩
        exact hx
      exact Or.inl (hpr _ hb1)

/-! Lemmas about the per-line traversal. -/

lemma mem_extractAux {fname pre suf : List Char} :
    ∀ {i : ℕ} {L : List (List Char)} {r : TimeRecord},
      r ∈ extractAux fname pre suf i L →
      ∃ j, j < L.length ∧ r.line_num = i + j + 1 ∧ r.line = pyStrip (L.getD j []) := by
  intro i L
  induction L generalizing i with
  | nil => intro r h; simp [extractAux] at h
  | cons l rest ih =>
    intro r h
    rw [extractAux] at h
    rcases List.mem_append.mp h with hm | hm
    · rcases List.mem_map.mp hm with ⟨v, _, rfl⟩
      exact ⟨0, by simp, by simp, by simp⟩
    · rcases ih hm with ⟨j, hj, hnum, hline⟩
      refine ⟨j + 1, by simpa using hj, by omega, by simpa using hline⟩

lemma line_num_lower {fname pre suf : List Char} {i : ℕ} {L : List (List Char)}
    {r : TimeRecord} (h : r ∈ extractAux fname pre suf i L) : i + 1 ≤ r.line_num := by
  rcases mem_extractAux h with ⟨j, _, hnum, _⟩
  omega

lemma extractAux_pairwise (fname pre suf : List Char) :
    ∀ (i : ℕ) (L : List (List Char)),
      (extractAux fname pre suf i L).Pairwise (fun a b => a.line_num ≤ b.line_num) := by
  intro i L
  induction L generalizing i with
  | nil => exact List.Pairwise.nil
  | cons l rest ih =>
    rw [extractAux, List.pairwise_append]
    refine ⟨?_, ih (i + 1), ?_⟩
    · have : ∀ (vs : List ℕ),
          (vs.map (fun v => (⟨fname, i + 1, v, pyStrip l⟩ : TimeRecord))).Pairwise
            (fun a b => a.line_num ≤ b.line_num) := by
        intro vs
        induction vs with
        | nil => exact List.Pairwise.nil
        | cons v t iht =>
          rw [List.map_cons, List.pairwise_cons]
          refine ⟨?_, iht⟩
          intro b hb
          rcases List.mem_map.mp hb with ⟨w, _, rfl⟩
          exact le_refl _
      exact this _
    · intro a ha b hb
      rcases List.mem_map.mp ha with ⟨v, _, rfl⟩
      have := line_num_lower hb
      simp only
      omega

/-! Lemmas about grouping. -/

lemma flatten_addTime (g : List (List Char × List ℕ)) (f : List Char) (t : ℕ) :
    (flattenGroups (addTime g f t)).Perm (flattenGroups g ++ [t]) := by
  induction g with
  | nil => simp [addTime, flattenGroups]
  | cons e rest ih =>
    rcases e with ⟨k, vs⟩
    by_cases hk : k = f
    · simp only [addTime, hk, if_true, flattenGroups, List.map_cons, List.flatten_cons]
      rw [List.append_assoc, List.append_assoc]
      exact List.Perm.append_left vs List.perm_append_comm
    · simp only [addTime, hk, if_false, flattenGroups, List.map_cons, List.flatten_cons]
      rw [List.append_assoc]
      exact List.Perm.append_left vs ih

lemma fileGroups_perm_aux :
    ∀ (ts : List TimeRecord) (g : List (List Char × List ℕ)),
      (flattenGroups (ts.foldl (fun g r => addTime g r.file r.time) g)).Perm
        (flattenGroups g ++ ts.map TimeRecord.time) := by
  intro ts
  induction ts with
  | nil => intro g; simp
  | cons r rest ih =>
    intro g
    rw [List.foldl_cons]
    have h1 := ih (addTime g r.file r.time)
    have h2 := (flatten_addTime g r.file r.time).append_right (rest.map TimeRecord.time)
    have h4 := h1.trans h2
    rw [List.append_assoc] at h4
    simpa using h4

lemma fileGroups_perm (ts : List TimeRecord) :
    (flattenGroups (fileGroups ts)).Perm (ts.map TimeRecord.time) := by
  have := fileGroups_perm_aux ts []
  simpa [flattenGroups] using this

/-! Lemmas about the percentile convention. -/

lemma medianOfSorted_eq_interp (s : List ℚ) (h : s ≠ []) :
    medianOfSorted s = interpAt s (rankOf 50 s.length) := by
  have hn : s.length ≠ 0 := fun hl => h (List.length_eq_zero.mp hl)
  rcases Nat.even_or_odd s.length with he | ho
  · rcases he with ⟨m, hm⟩
    obtain ⟨k, hk⟩ : ∃ k, m = k + 1 := ⟨m - 1, by omega⟩
    have hlen : s.length = 2 * k + 2 := by omega
    have hrank : rankOf 50 s.length = (k : ℚ) + 1 / 2 := by
      rw [rankOf, hlen]; push_cast; ring
    have hfl : Int.floor ((k : ℚ) + 1 / 2) = (k : ℤ) := by
      rw [Int.floor_eq_iff]
      constructor
      · push_cast; linarith
      · push_cast; linarith
    rw [medianOfSorted, interpAt, hrank, hfl, Int.toNat_natCast]
    have hodd : ¬ (s.length % 2 = 1) := by omega
    rw [if_neg hodd]
    have h2 : s.length / 2 = k + 1 := by omega
    rw [h2]
    simp only [Nat.add_sub_cancel]
    ring
  · rcases ho with ⟨m, hm⟩
    have hrank : rankOf 50 s.length = (m : ℚ) := by
      rw [rankOf, hm]; push_cast; ring
    rw [medianOfSorted, interpAt, hrank, Int.floor_natCast, Int.toNat_natCast]
    have hodd : s.length % 2 = 1 := by omega
    rw [if_pos hodd]
    have h2 : s.length / 2 = m := by omega
    rw [h2]
    ring

lemma sortQ_ne_nil {l : List ℚ} (h : l ≠ []) : sortQ l ≠ [] := by
  intro hnil
  apply h
  have hlen := List.length_insertionSort (fun a b => a ≤ b) l
  rw [sortQ] at hnil
  rw [hnil] at hlen
  exact List.length_eq_zero.mp hlen.symm

lemma npMedian_eq_npPercentile50 (l : List ℚ) (h : l ≠ []) :
    npMedian l = npPercentile 50 l := by
  rw [npMedian, npPercentile]
  exact medianOfSorted_eq_interp (sortQ l) (sortQ_ne_nil h)

/-! Claim theorems. -/

/-- Claim C1 (code bug): contrary to the at-most-one-record-per-line claim,
the source's misplaced found-flag check lets a second prefix position emit a
second record on the same line: content `"AA 5 B"` with prefix `"A"` and
suffix `"B"` yields two records, both from line 1. -/
theorem C1_one_line_emits_two_records :
    (extract_times ("AA 5 B".toList) ("A".toList) ("B".toList) ("log".toList)).map
      (fun r => (r.line_num, r.time)) = [(1, 5), (1, 5)] := by
  decide

/-- Claim C2 (counterexample): the record extracted from content `"\nA1B"`
carries `line_num = 1`, yet its source line is the second line of the raw
newline split, so `line_num` does not index the raw split of the content. -/
theorem C2_raw_split_counterexample :
    ¬ (∀ r ∈ extract_times ("\nA1B".toList) ("A".toList) ("B".toList) ("f".toList),
        r.line = pyStrip ((splitNl ("\nA1B".toList)).getD (r.line_num - 1) [])) := by
  decide

/-- Claim C2 (amended): every record's `line_num` is the 1-indexed position
of its source line within the newline split of the STRIPPED content
(`content.strip().split("\n")`), and the record's `line` field is that
source line stripped. -/
theorem C2_line_number_indexes_stripped_split (content pre suf fname : List Char) :
    ∀ r ∈ extract_times content pre suf fname,
      1 ≤ r.line_num ∧ r.line_num ≤ (splitNl (pyStrip content)).length ∧
      r.line = pyStrip ((splitNl (pyStrip content)).getD (r.line_num - 1) []) := by
  intro r hr
  rw [extract_times] at hr
  rcases mem_extractAux hr with ⟨j, hj, hnum, hline⟩
  refine ⟨by omega, by omega, ?_⟩
  have hj0 : r.line_num - 1 = j := by omega
  rw [hj0]
  exact hline

/-- Witness for the amended C2 theorem at a concrete input. -/
theorem C2_line_number_indexes_stripped_split_witness :
    (⟨"f".toList, 1, 1, "A1B".toList⟩ : TimeRecord) ∈
        extract_times ("A1B".toList) ("A".toList) ("B".toList) ("f".toList) ∧
      (1 ≤ (⟨"f".toList, 1, 1, "A1B".toList⟩ : TimeRecord).line_num ∧
        (⟨"f".toList, 1, 1, "A1B".toList⟩ : TimeRecord).line_num ≤
          (splitNl (pyStrip ("A1B".toList))).length ∧
        (⟨"f".toList, 1, 1, "A1B".toList⟩ : TimeRecord).line =
          pyStrip ((splitNl (pyStrip ("A1B".toList))).getD
            ((⟨"f".toList, 1, 1, "A1B".toList⟩ : TimeRecord).line_num - 1) [])) :=
  ⟨by decide,
    C2_line_number_indexes_stripped_split ("A1B".toList) ("A".toList) ("B".toList)
      ("f".toList) ⟨"f".toList, 1, 1, "A1B".toList⟩ (by decide)⟩

/-- Claim C3: the value a line reports comes from the first valid candidate
pair of the nested ascending scan, which is the lexicographically smallest
valid pair; in particular `"A 5 B A 9 B"` with prefix `"A"`, suffix `"B"`
yields 5, not 9. -/
theorem C3_first_valid_pair_wins (line pre suf : List Char) :
    ((lineValues line pre suf).head? =
      ((candPairs (findAll pre line) (findAll suf line)).find?
        (validPair line pre.length)).map (pairValue line pre.length)) ∧
    (∀ q0, (candPairs (findAll pre line) (findAll suf line)).find?
        (validPair line pre.length) = some q0 →
      ∀ q ∈ candPairs (findAll pre line) (findAll suf line),
        validPair line pre.length q = true →
        q0.1 < q.1 ∨ (q0.1 = q.1 ∧ q0.2 ≤ q.2)) ∧
    lineValues ("A 5 B A 9 B".toList) ("A".toList) ("B".toList) = [5] := by
  refine ⟨lineValues_head line pre suf, ?_, by decide⟩
  intro q0 hq0 q hq hvq
  have hp : (findAll pre line).Pairwise (fun a b => a < b) := by
    rw [findAll_eq_allPos]; exact allPos_pairwise _ _
  have hs : (findAll suf line).Pairwise (fun a b => a < b) := by
    rw [findAll_eq_allPos]; exact allPos_pairwise _ _
  have hmin := find?_min (candPairs_pairwise hp hs) hq0 q hq hvq
  rcases hmin with rfl | hlt
  · exact Or.inr ⟨rfl, le_refl _⟩
  · rcases hlt with h | ⟨h1, h2⟩
    · exact Or.inl h
    · exact Or.inr ⟨h1, le_of_lt h2⟩

/-- Witness for C3 at the example line: the scan selects pair (0, 4), which
is lexicographically below the other valid pair (6, 10). -/
theorem C3_first_valid_pair_wins_witness :
    ((candPairs (findAll ("A".toList) ("A 5 B A 9 B".toList))
        (findAll ("B".toList) ("A 5 B A 9 B".toList))).find?
      (validPair ("A 5 B A 9 B".toList) ("A".toList).length) = some (0, 4)) ∧
    ((0 : ℕ) < 6 ∨ ((0 : ℕ) = 6 ∧ (4 : ℕ) ≤ 10)) :=
  ⟨by decide,
    (C3_first_valid_pair_wins ("A 5 B A 9 B".toList) ("A".toList) ("B".toList)).2.1
      (0, 4) (by decide) (6, 10) (by decide) (by decide)⟩

/-- Claim C4: the find-loop that restarts at `p + 1` enumerates every
occurrence position, overlapping ones included, in ascending order; line
`"AAA"` with search string `"AA"` yields positions 0 and 1. -/
theorem C4_enumerates_all_positions :
    (∀ pat line, findAll pat line = allPos pat line) ∧
    (∀ pat line, (findAll pat line).Pairwise (fun a b => a < b)) ∧
    findAll ("AA".toList) ("AAA".toList) = [0, 1] := by
  refine ⟨findAll_eq_allPos, ?_, by decide⟩
  intro pat line
  rw [findAll_eq_allPos]
  exact allPos_pairwise pat line

/-- Claim C5: the grouped per-file values are a permutation of all
extracted values, and the per-file counts sum to the overall count. -/
theorem C5_partition_invariant (ts : List TimeRecord) :
    (flattenGroups (fileGroups ts)).Perm (ts.map TimeRecord.time) ∧
    ((group_by_file ts).map (fun e => e.2.count)).sum =
      (calculate_statistics ts).count := by
  refine ⟨fileGroups_perm ts, ?_⟩
  have hlen : (flattenGroups (fileGroups ts)).length = ts.length := by
    have := (fileGroups_perm ts).length_eq
    simpa using this
  have hsum : ((group_by_file ts).map (fun e => e.2.count)).sum =
      (flattenGroups (fileGroups ts)).length := by
    rw [group_by_file, List.map_map, flattenGroups, List.length_flatten, List.map_map]
    congr 1
  rw [hsum, hlen, calculate_statistics]
  by_cases h : ts = []
  · rw [if_pos h, h]; rfl
  · rw [if_neg h]
    simp [statsOfValues]

/-- Claim C6: in `calculate_statistics`, the median and the p90/p95/p99
fields all follow the single linear-interpolation percentile convention
(rank `p / 100 * (n - 1)`, zero-indexed, interpolated between floor and
ceiling ranks), the median being the 50th percentile of that convention. -/
theorem C6_uniform_percentile_convention (ts : List TimeRecord) (h : ts ≠ []) :
    (calculate_statistics ts).median =
        npPercentile 50 (valuesQ (ts.map TimeRecord.time)) ∧
    (calculate_statistics ts).p90 =
        npPercentile 90 (valuesQ (ts.map TimeRecord.time)) ∧
    (calculate_statistics ts).p95 =
        npPercentile 95 (valuesQ (ts.map TimeRecord.time)) ∧
    (calculate_statistics ts).p99 =
        npPercentile 99 (valuesQ (ts.map TimeRecord.time)) := by
  rw [calculate_statistics, if_neg h]
  refine ⟨?_, rfl, rfl, rfl⟩
  apply npMedian_eq_npPercentile50
  rcases ts with _ | ⟨r, rest⟩
  · exact absurd rfl h
  · simp [valuesQ]

/-- Witness for C6 on the two values 3 and 7: both the NumPy median and the
interpolated 50th percentile give 5. -/
theorem C6_uniform_percentile_convention_witness :
    ([(⟨"f".toList, 1, 3, [] ⟩ : TimeRecord), ⟨"f".toList, 2, 7, []⟩] ≠
        ([] : List TimeRecord)) ∧
    (calculate_statistics [⟨"f".toList, 1, 3, []⟩, ⟨"f".toList, 2, 7, []⟩]).median =
      npPercentile 50 (valuesQ
        (([(⟨"f".toList, 1, 3, []⟩ : TimeRecord), ⟨"f".toList, 2, 7, []⟩]).map
          TimeRecord.time)) :=
  ⟨by decide,
    (C6_uniform_percentile_convention
      [⟨"f".toList, 1, 3, []⟩, ⟨"f".toList, 2, 7, []⟩] (by decide)).1⟩

/-- Claim C7: with a valid directory and non-empty search strings, a run
that extracts zero records exits with status 0, while the aggregation on
the empty record list gives the all-zero statistics and an empty per-file
mapping. -/
theorem C7_zero_records_degenerate (pre suf : List Char)
    (files : List (List Char × Option (List Char)))
    (h1 : pre ≠ []) (h2 : suf ≠ [])
    (h0 : extract_times_from_directory files pre suf = []) :
    (mainRun true pre suf files).1 = 0 ∧
    calculate_statistics (extract_times_from_directory files pre suf) =
      ⟨0, 0, 0, 0, 0, 0, 0, 0⟩ ∧
    group_by_file (extract_times_from_directory files pre suf) = [] := by
  refine ⟨?_, ?_, ?_⟩
  · simp [mainRun, h0, h1, h2]
  · rw [h0]; rfl
  · rw [h0]; rfl

/-- Witness for C7 on one file whose content contains neither search
string. -/
theorem C7_zero_records_degenerate_witness :
    (("X".toList ≠ []) ∧ ("Y".toList ≠ []) ∧
      extract_times_from_directory [("f".toList, some ("hi".toList))]
        ("X".toList) ("Y".toList) = []) ∧
    ((mainRun true ("X".toList) ("Y".toList)
        [("f".toList, some ("hi".toList))]).1 = 0 ∧
      calculate_statistics (extract_times_from_directory
        [("f".toList, some ("hi".toList))] ("X".toList) ("Y".toList)) =
        ⟨0, 0, 0, 0, 0, 0, 0, 0⟩ ∧
      group_by_file (extract_times_from_directory
        [("f".toList, some ("hi".toList))] ("X".toList) ("Y".toList)) = []) :=
  ⟨⟨by decide, by decide, by decide⟩,
    C7_zero_records_degenerate ("X".toList) ("Y".toList)
      [("f".toList, some ("hi".toList))] (by decide) (by decide) (by decide)⟩

/-- Claim C8: candidate pairs whose stripped interior has no digit run are
skipped, and a line whose candidate pairs are all exhausted without a digit
run yields no record; `"start:end"` with prefix `"start:"` and suffix
`":end"` yields nothing and raises no error. -/
theorem C8_no_digit_line_yields_nothing :
    (∀ line pre suf,
      (candPairs (findAll pre line) (findAll suf line)).find?
        (validPair line pre.length) = none →
      lineValues line pre suf = []) ∧
    lineValues ("start:end".toList) ("start:".toList) (":end".toList) = [] :=
  ⟨fun line pre suf h => lineValues_nil_of_none line pre suf h, by decide⟩

/-- Witness for C8 on the line `"abc"` with prefix `"a"`, suffix `"b"`:
the only candidate pair has an empty interior, so nothing is emitted. -/
theorem C8_no_digit_line_yields_nothing_witness :
    ((candPairs (findAll ("a".toList) ("abc".toList))
        (findAll ("b".toList) ("abc".toList))).find?
      (validPair ("abc".toList) ("a".toList).length) = none) ∧
    lineValues ("abc".toList) ("a".toList) ("b".toList) = [] :=
  ⟨by decide, C8_no_digit_line_yields_nothing.1 ("abc".toList) ("a".toList)
    ("b".toList) (by decide)⟩

/-- Claim C9: a file whose read fails contributes an empty record list, and
the directory-level extraction of the remaining files is unaffected. -/
theorem C9_failed_file_contributes_nothing (fname pre suf : List Char)
    (files1 files2 : List (List Char × Option (List Char))) :
    extract_times_from_file fname none pre suf = [] ∧
    extract_times_from_directory (files1 ++ (fname, none) :: files2) pre suf =
      extract_times_from_directory files1 pre suf ++
        extract_times_from_directory files2 pre suf := by
  refine ⟨rfl, ?_⟩
  simp [extract_times_from_directory, extract_times_from_file]

/-- Claim C10: the record sequence of one file is ordered by source line:
consecutive records have non-decreasing `line_num`. -/
theorem C10_records_in_line_order (content pre suf fname : List Char) :
    (extract_times content pre suf fname).Pairwise
      (fun a b => a.line_num ≤ b.line_num) := by
  rw [extract_times]
  exact extractAux_pairwise fname pre suf 0 _

end LogAnalyzer
